import Mathlib

/-!
# Verification of the MathLogicEvaluator expression interpreter

Shallow embedding of `src/main.cpp` (class `MathLogicEvaluator`): an infix
expression evaluator built from a tokenizer, a structural validator, a
shunting-yard infix-to-postfix converter and a postfix evaluator, sharing an
operator-precedence table.

Modelling notes:
* C++ `int` is modelled as unbounded `Int`; the repository treats overflow as
  unspecified behaviour and no theorem below depends on wrap-around.
* The precedence table is a C++ `unordered_map<string,int>` member.  Because
  `convertToPostfix` reads it with `operator[]`, which default-inserts missing
  keys with value `0`, the table is genuine mutable state: it is modelled as an
  association list threaded through the pipeline (`tblIndex` models
  `operator[]`, `tblCount` models `count`).
* `throw ExpressionError(msg)` is modelled as `Except.error msg`.  The source
  messages on lines 116 and 120 spell "can't" with an ASCII apostrophe and the
  message on line 133 uses the right single quotation mark; all three are
  transcribed here with the right single quotation mark.  No theorem depends on
  the distinction, only on the messages being the source's distinct strings.
* The tokenizer's index loop is written with a character-count fuel, supplied
  as the length of the character list; every step consumes at least one
  character, so the fuel never runs out.
-/

/-- The operator-precedence map, modelled as an association list
(first match wins, insertion appends at the end). -/
abbrev Table := List (String × Int)

/-- `unordered_map::count`-style lookup: the value stored for key `k`, if present. -/
def tblLookup (t : Table) (k : String) : Option Int :=
  (t.find? (fun p => p.1 == k)).map (fun p => p.2)

/-- `operatorPrecedence.count(k)` from the source: is `k` a key of the table? -/
def tblCount (t : Table) (k : String) : Bool :=
  (tblLookup t k).isSome

/-- `operatorPrecedence[k]` from the source: C++ `unordered_map::operator[]`
returns the stored value and, when the key is absent, first inserts it with the
value-initialized mapped value `0`. -/
def tblIndex (t : Table) (k : String) : Int × Table :=
  match tblLookup t k with
  | some v => (v, t)
  | none => (0, t ++ [(k, 0)])

/-- Initial contents of `operatorPrecedence` (src/main.cpp lines 30-37). -/
def operatorPrecedence : Table :=
  [("||", 1), ("&&", 2), ("==", 3), ("!=", 3),
   (">", 4), (">=", 4), ("<", 4), ("<=", 4),
   ("+", 5), ("-", 5),
   ("*", 6), ("/", 6), ("%", 6),
   ("^", 7),
   ("!", 8), ("++", 8), ("--", 8), ("neg", 8)]

/-- `isRightAssociative` (src/main.cpp lines 43-45). -/
def isRightAssociative (op : String) : Bool :=
  op == "^" || op == "!" || op == "++" || op == "--" || op == "neg"

/-- `isUnaryOperator` (src/main.cpp lines 51-53). -/
def isUnaryOperator (op : String) : Bool :=
  op == "!" || op == "++" || op == "--" || op == "neg"

/-- C `isspace` on the ASCII characters the source can meet. -/
def isSpaceC (c : Char) : Bool :=
  c == ' ' || c == '\t' || c == '\n' || c == Char.ofNat 11 || c == Char.ofNat 12 || c == '\r'

/-- `token[0]` on a `std::string`: the first character, `'\0'` when empty. -/
def headChar (s : String) : Char :=
  s.toList.headD (Char.ofNat 0)

/-- Lines 91-97 of `tokenizeExpression`: emit a single-character token,
rewriting `-` to the synthetic unary operator `"neg"` when the token list is
empty, the previously emitted token is `"("`, or the previously emitted token
is a key of the operator table. -/
def emitSingle (t : Table) (toks : List String) (c : Char) : List String :=
  if c == '-' && (toks.isEmpty || toks.getLastD "" == "(" || tblCount t (toks.getLastD "")) then
    toks ++ ["neg"]
  else
    toks ++ [String.singleton c]

/-- The scanning loop of `tokenizeExpression` (src/main.cpp lines 63-99).
The first argument is fuel bounding the number of remaining characters. -/
def tokAux (t : Table) : Nat → List Char → List String → List String
  | 0, _, acc => acc
  | _ + 1, [], acc => acc
  | fuel + 1, c :: cs, acc =>
    if isSpaceC c then tokAux t fuel cs acc
    else if c.isDigit then
      tokAux t fuel (cs.dropWhile Char.isDigit) (acc ++ [String.mk (c :: cs.takeWhile Char.isDigit)])
    else
      match cs with
      | d :: cs2 =>
        if tblCount t (String.mk [c, d]) then tokAux t fuel cs2 (acc ++ [String.mk [c, d]])
        else tokAux t fuel cs (emitSingle t acc c)
      | [] => tokAux t fuel [] (emitSingle t acc c)

/-- `tokenizeExpression` (src/main.cpp lines 59-102). -/
def tokenizeExpression (t : Table) (expr : String) : List String :=
  tokAux t expr.toList.length expr.toList []

/-- The body of the validation loop of `validateTokenSequence`
(src/main.cpp lines 109-134) at index `i`. -/
def checkToken (t : Table) (toks : List String) (i : Nat) : Except String Unit :=
  let token := toks.getD i ""
  let prev := if 0 < i then toks.getD (i - 1) "" else ""
  let next := toks.getD (i + 1) ""
  if token == ")" && i == 0 then
    Except.error "Expression can’t start with a closing parenthesis @ char: 0"
  else if tblCount t token && !isUnaryOperator token && i == 0 then
    Except.error "Expression can’t start with a binary operator @ char: 0"
  else if tblCount t token && !isUnaryOperator token &&
      (tblCount t prev && !isUnaryOperator prev) then
    Except.error ("Two binary operators in a row @ char: " ++ toString i)
  else if (headChar token).isDigit && !prev.isEmpty && (headChar prev).isDigit then
    Except.error ("Two operands in a row @ char: " ++ toString i)
  else if isUnaryOperator token && !next.isEmpty &&
      (tblCount t next && !isUnaryOperator next) then
    Except.error ("A unary operand can’t be followed by a binary operator @ char: " ++
      toString (i + 1))
  else
    Except.ok ()

/-- The index loop of `validateTokenSequence`; fuel bounds the remaining indices. -/
def validateAux (t : Table) (toks : List String) : Nat → Nat → Except String Unit
  | 0, _ => Except.ok ()
  | fuel + 1, i =>
    if i < toks.length then
      match checkToken t toks i with
      | Except.ok _ => validateAux t toks fuel (i + 1)
      | Except.error e => Except.error e
    else
      Except.ok ()

/-- `validateTokenSequence` (src/main.cpp lines 108-135). -/
def validateTokenSequence (t : Table) (toks : List String) : Except String Unit :=
  validateAux t toks toks.length 0

/-- The inner `while` of the operator case of `convertToPostfix`
(src/main.cpp lines 156-161): pop operators to the output while the condition
holds, then return the updated table, stack and output.  Both map accesses use
`operator[]` and may insert a missing key with value `0`. -/
def opLoop (tok : String) : Table → List String → List String → Table × List String × List String
  | t, [], out => (t, [], out)
  | t, top :: rest, out =>
    if top == "(" then (t, top :: rest, out)
    else
      let pt := tblIndex t tok
      let pp := tblIndex pt.2 top
      if (isRightAssociative tok && decide (pt.1 < pp.1)) ||
          (!isRightAssociative tok && decide (pt.1 ≤ pp.1)) then
        opLoop tok pp.2 rest (out ++ [top])
      else
        (pp.2, top :: rest, out)

/-- The token loop of `convertToPostfix` (src/main.cpp lines 144-172),
followed by the final pop of the remaining stack to the output. -/
def convertAux (t : Table) : List String → List String → List String → List String × Table
  | [], stack, out => (out ++ stack, t)
  | tok :: toks, stack, out =>
    if (headChar tok).isDigit then convertAux t toks stack (out ++ [tok])
    else if tok == "(" then convertAux t toks (tok :: stack) out
    else if tok == ")" then
      let popped := stack.takeWhile (fun s => s != "(")
      let stack2 :=
        match stack.dropWhile (fun s => s != "(") with
        | [] => []
        | _ :: r => r
      convertAux t toks stack2 (out ++ popped)
    else
      match opLoop tok t stack out with
      | (t2, stack2, out2) => convertAux t2 toks (tok :: stack2) out2

/-- `convertToPostfix` (src/main.cpp lines 140-173). -/
def convertToPostfixTokens (t : Table) (toks : List String) : List String × Table :=
  convertAux t toks [] []

/-- `std::stoi` on the all-digit number tokens the tokenizer produces. -/
def stoi (s : String) : Int :=
  Int.ofNat (s.toList.foldl (fun a c => 10 * a + (c.toNat - 48)) 0)

/-- `pow(left, right)` truncated to `int` (src/main.cpp line 187): for a
nonnegative exponent on integer arguments the `double` computation is exact for
every value reached in this development, giving the integer power; for a
negative exponent the real result has magnitude at most one, and the `int`
conversion truncates toward zero.  `pow(0, r)` with `r < 0` is a domain error
in C; it is given the junk value `0` here and no theorem relies on it. -/
def ipow (l r : Int) : Int :=
  if 0 ≤ r then l ^ r.toNat
  else if l = 1 then 1
  else if l = -1 then (if (-r).toNat % 2 = 0 then 1 else -1)
  else 0

/-- `calculateBinaryOperation` (src/main.cpp lines 178-198).  C++ `/` and `%`
on `int` truncate toward zero, hence `Int.tdiv`/`Int.tmod`; `left % 0` is
undefined behaviour in C++ (the spec leaves it unspecified) and no theorem
below evaluates it. -/
def calculateBinaryOperation (op : String) (left right : Int) : Except String Int :=
  if op == "+" then Except.ok (left + right)
  else if op == "-" then Except.ok (left - right)
  else if op == "*" then Except.ok (left * right)
  else if op == "/" then
    if right == 0 then Except.error "Division by zero"
    else Except.ok (Int.tdiv left right)
  else if op == "%" then Except.ok (Int.tmod left right)
  else if op == "^" then Except.ok (ipow left right)
  else if op == "==" then Except.ok (if left == right then 1 else 0)
  else if op == "!=" then Except.ok (if left != right then 1 else 0)
  else if op == ">" then Except.ok (if right < left then 1 else 0)
  else if op == "<" then Except.ok (if left < right then 1 else 0)
  else if op == ">=" then Except.ok (if right ≤ left then 1 else 0)
  else if op == "<=" then Except.ok (if left ≤ right then 1 else 0)
  else if op == "&&" then Except.ok (if left != 0 && right != 0 then 1 else 0)
  else if op == "||" then Except.ok (if left != 0 || right != 0 then 1 else 0)
  else Except.error ("Unknown binary operator: " ++ op)

/-- `calculateUnaryOperation` (src/main.cpp lines 203-210). -/
def calculateUnaryOperation (op : String) (operand : Int) : Except String Int :=
  if op == "!" then Except.ok (if operand == 0 then 1 else 0)
  else if op == "++" then Except.ok (operand + 1)
  else if op == "--" then Except.ok (operand - 1)
  else if op == "neg" then Except.ok (-operand)
  else Except.error ("Unknown unary operator: " ++ op)

/-- The token loop of `evaluatePostfixExpression` (src/main.cpp lines 218-231)
over the value stack (head of the list is the top of the stack), followed by
the final single-value check. -/
def evalPostfixAux : List String → List Int → Except String Int
  | [], values =>
    match values with
    | [v] => Except.ok v
    | _ => Except.error "Expression evaluation error: leftover operands"
  | tok :: toks, values =>
    if (headChar tok).isDigit then evalPostfixAux toks (stoi tok :: values)
    else if isUnaryOperator tok then
      match values with
      | [] => Except.error "Missing operand for unary operator"
      | v :: rest =>
        match calculateUnaryOperation tok v with
        | Except.ok r => evalPostfixAux toks (r :: rest)
        | Except.error e => Except.error e
    else
      match values with
      | right :: left :: rest =>
        match calculateBinaryOperation tok left right with
        | Except.ok r => evalPostfixAux toks (r :: rest)
        | Except.error e => Except.error e
      | _ => Except.error "Missing operands for binary operator"

/-- `evaluatePostfixExpression` (src/main.cpp lines 215-235). -/
def evaluatePostfixExpression (pf : List String) : Except String Int :=
  evalPostfixAux pf []

/-- `evaluate` (src/main.cpp lines 242-247), with the precedence-table member
threaded explicitly: the result of the call together with the table state it
leaves behind.  A validation error aborts before the converter runs, so the
table is returned unchanged in that case. -/
def evaluateS (t : Table) (expression : String) : Except String Int × Table :=
  let tokens := tokenizeExpression t expression
  match validateTokenSequence t tokens with
  | Except.error e => (Except.error e, t)
  | Except.ok _ =>
    match convertToPostfixTokens t tokens with
    | (pf, t2) => (evaluatePostfixExpression pf, t2)

/-- One `evaluate` call on a freshly constructed `MathLogicEvaluator`. -/
def evaluate (expression : String) : Except String Int :=
  (evaluateS operatorPrecedence expression).1

/-- The table state after `n + 1` successive `evaluate` calls of the same
string on one evaluator object, together with the result of the last call. -/
def evalCalls (s : String) : Nat → Except String Int × Table
  | 0 => evaluateS operatorPrecedence s
  | n + 1 => evaluateS (evalCalls s n).2 s

/-! ## Helper lemmas -/

lemma tblLookup_append_left :
    ∀ (t t2 : Table) {k : String} {v : Int},
      tblLookup t k = some v → tblLookup (t ++ t2) k = some v := by
  intro t
  induction t with
  | nil => intro t2 k v h; simp [tblLookup] at h
  | cons p t ih =>
    intro t2 k v h
    cases hp : (p.1 == k) with
    | true =>
      simp only [tblLookup, List.cons_append, List.find?, hp] at h ⊢
      exact h
    | false =>
      simp only [tblLookup, List.cons_append, List.find?, hp] at h ⊢
      exact ih t2 h

lemma tblIndex_preserves {t : Table} {k : String} {v : Int}
    (h : tblLookup t k = some v) (k2 : String) :
    tblLookup (tblIndex t k2).2 k = some v := by
  unfold tblIndex
  cases hl : tblLookup t k2 with
  | some w => simpa using h
  | none => simpa using tblLookup_append_left t [(k2, 0)] h

lemma opLoop_preserves {k : String} {v : Int} :
    ∀ (stack : List String) (tok : String) (t : Table) (out : List String),
      tblLookup t k = some v → tblLookup (opLoop tok t stack out).1 k = some v := by
  intro stack
  induction stack with
  | nil => intro tok t out h; simpa [opLoop] using h
  | cons top rest ih =>
    intro tok t out h
    unfold opLoop
    by_cases htop : (top == "(") = true
    · simpa [htop] using h
    · simp only [htop, Bool.false_eq_true, if_false, if_neg]
      have h1 := tblIndex_preserves h tok
      have h2 := tblIndex_preserves h1 top
      by_cases hcond : ((isRightAssociative tok &&
          decide ((tblIndex t tok).1 < (tblIndex (tblIndex t tok).2 top).1)) ||
          (!isRightAssociative tok &&
          decide ((tblIndex t tok).1 ≤ (tblIndex (tblIndex t tok).2 top).1))) = true
      · simpa [hcond] using ih tok _ _ h2
      · simpa [hcond] using h2

lemma convertAux_preserves {k : String} {v : Int} :
    ∀ (toks : List String) (t : Table) (stack out : List String),
      tblLookup t k = some v → tblLookup (convertAux t toks stack out).2 k = some v := by
  intro toks
  induction toks with
  | nil => intro t stack out h; simpa [convertAux] using h
  | cons tok toks ih =>
    intro t stack out h
    unfold convertAux
    by_cases h1 : (headChar tok).isDigit = true
    · simpa [h1] using ih t stack (out ++ [tok]) h
    · by_cases h2 : (tok == "(") = true
      · simpa [h1, h2] using ih t (tok :: stack) out h
      · by_cases h3 : (tok == ")") = true
        · simpa [h1, h2, h3] using ih t _ _ h
        · simp only [h1, h2, h3, Bool.false_eq_true, if_false, if_neg]
          have hop := opLoop_preserves stack tok t out h
          rcases hloop : opLoop tok t stack out with ⟨t2, stack2, out2⟩
          rw [hloop] at hop
          exact ih t2 (tok :: stack2) out2 hop

/-- A list all of whose members differ from `"("` is fully taken by the
converter's right-parenthesis pop. -/
lemma takeWhile_no_paren :
    ∀ (l : List String), (∀ x ∈ l, x ≠ "(") → l.takeWhile (fun s => s != "(") = l := by
  intro l h
  induction l with
  | nil => rfl
  | cons a l ih =>
    have ha : (a != "(") = true := by
      simpa [bne_iff_ne] using h a (by simp)
    simp [List.takeWhile, ha, ih (fun x hx => h x (by simp [hx]))]

lemma dropWhile_no_paren :
    ∀ (l : List String), (∀ x ∈ l, x ≠ "(") → l.dropWhile (fun s => s != "(") = [] := by
  intro l h
  induction l with
  | nil => rfl
  | cons a l ih =>
    have ha : (a != "(") = true := by
      simpa [bne_iff_ne] using h a (by simp)
    simp [List.dropWhile, ha, ih (fun x hx => h x (by simp [hx]))]

lemma tokAux_spaces (t : Table) :
    ∀ (fuel : Nat) (cs : List Char) (acc : List String),
      (∀ c ∈ cs, isSpaceC c = true) → tokAux t fuel cs acc = acc := by
  intro fuel
  induction fuel with
  | zero => intro cs acc _; rfl
  | succ n ih =>
    intro cs acc h
    cases cs with
    | nil => rfl
    | cons c cs =>
      have hc : isSpaceC c = true := h c (by simp)
      simp only [tokAux, hc, if_true]
      exact ih cs acc (fun x hx => h x (by simp [hx]))

/-! ## C1: the operator table is mutated by `operator[]` on unknown symbols -/

/-- C1 counterexample: evaluating `"1 + 2 @ 3"` inserts the entry `("@", 0)`
into the operator-precedence table, so the table's set of entries is not left
unchanged by `evaluate` — refuting the claim at this concrete input. -/
theorem c1_counterexample :
    tblLookup operatorPrecedence "@" = none ∧
    tblLookup ((evaluateS operatorPrecedence "1 + 2 @ 3").2) "@" = some 0 :=
  ⟨rfl, rfl⟩

/-- C1 amended: `evaluate` never changes or removes an entry already present
in the operator table — every existing key keeps its value across a call; the
call may only append new entries (mapping unrecognized symbols to `0`). -/
theorem c1_amended_preservation (t : Table) (s k : String) (v : Int)
    (h : tblLookup t k = some v) : tblLookup ((evaluateS t s).2) k = some v := by
  unfold evaluateS
  simp only
  split
  · exact h
  · show tblLookup (convertToPostfixTokens t (tokenizeExpression t s)).2 k = some v
    exact convertAux_preserves (tokenizeExpression t s) t [] [] h

/-- Witness for `c1_amended_preservation` at a concrete table, input and key. -/
theorem c1_amended_preservation_witness :
    tblLookup operatorPrecedence "+" = some 5 ∧
    tblLookup ((evaluateS operatorPrecedence "1 + 2 @ 3").2) "+" = some 5 :=
  ⟨rfl, c1_amended_preservation operatorPrecedence "1 + 2 @ 3" "+" 5 rfl⟩

/-! ## C2: tokenization of `"--3"` -/

/-- C2 counterexample: tokenizing `"--3"` yields the single two-character
operator token `"--"` followed by `"3"` — two tokens in total, not the three
tokens (`"neg"`, `"neg"`, `"3"`) that two consecutive unary-negation
applications would give. -/
theorem c2_counterexample :
    tokenizeExpression operatorPrecedence "--3" = ["--", "3"] ∧
    (["--", "3"] : List String) ≠ ["neg", "neg", "3"] ∧
    (tokenizeExpression operatorPrecedence "--3").length = 2 :=
  ⟨rfl, by decide, rfl⟩

/-- C2 amended: tokenizing `"--3"` produces the single two-character unary
operator token `"--"` (prefix decrement) and then `"3"`, because the
two-character operator match runs before the unary-minus rewrite; hence
`"--3"` evaluates to `2`.  Two consecutive `"neg"` tokens arise only when the
minus signs are separated, as in `"- -3"`. -/
theorem c2_amended_tokenize :
    tokenizeExpression operatorPrecedence "--3" = ["--", "3"] ∧
    isUnaryOperator "--" = true ∧
    evaluate "--3" = Except.ok 2 ∧
    tokenizeExpression operatorPrecedence "- -3" = ["neg", "neg", "3"] :=
  ⟨rfl, rfl, rfl, rfl⟩

/-! ## C3: repeated evaluation of the same string -/

/-- C3 counterexample: on one evaluator object, the first call of
`evaluate("2 @ -3")` and the immediately following identical call return
different errors — the first call inserts `"@"` into the operator table, which
changes how the second call tokenizes the `-` — refuting the claim. -/
theorem c3_counterexample :
    (evaluateS operatorPrecedence "2 @ -3").1 =
      Except.error "Missing operands for binary operator" ∧
    (evaluateS ((evaluateS operatorPrecedence "2 @ -3").2) "2 @ -3").1 =
      Except.error "Unknown binary operator: @" ∧
    ("Missing operands for binary operator" : String) ≠ "Unknown binary operator: @" :=
  ⟨rfl, rfl, by decide⟩

/-- C3 amended: whenever a call of `evaluate(s)` leaves the operator table
unchanged (as happens for every input whose symbols are all recognized),
repeating the call any number of times with no intervening operations yields
the same outcome every time. -/
theorem c3_amended_idempotent (s : String)
    (h : (evaluateS operatorPrecedence s).2 = operatorPrecedence) :
    ∀ n : Nat, evalCalls s n = evaluateS operatorPrecedence s := by
  intro n
  induction n with
  | zero => rfl
  | succ n ih =>
    show evaluateS (evalCalls s n).2 s = _
    rw [ih, h]

/-- Witness for `c3_amended_idempotent`: four calls of `evaluate("1 + 2 * 3")`
all return the result of the first. -/
theorem c3_amended_idempotent_witness :
    (evaluateS operatorPrecedence "1 + 2 * 3").2 = operatorPrecedence ∧
    evalCalls "1 + 2 * 3" 3 = evaluateS operatorPrecedence "1 + 2 * 3" :=
  ⟨rfl, c3_amended_idempotent "1 + 2 * 3" rfl 3⟩

/-! ## C8: division by zero -/

/-- C8: applying `/` fails with the "Division by zero" error exactly when the
right operand is `0`, and otherwise returns the truncating integer quotient;
end to end, `evaluate("4 / 0")` fails with that error. -/
theorem c8_division_by_zero :
    (∀ left right : Int, calculateBinaryOperation "/" left right =
        if right = 0 then Except.error "Division by zero"
        else Except.ok (Int.tdiv left right)) ∧
    (∀ left right : Int,
        (calculateBinaryOperation "/" left right = Except.error "Division by zero" ↔
          right = 0)) ∧
    (evaluateS operatorPrecedence "4 / 0").1 = Except.error "Division by zero" := by
  have hbase : ∀ left right : Int, calculateBinaryOperation "/" left right =
      if right = 0 then Except.error "Division by zero"
      else Except.ok (Int.tdiv left right) := by
    intro l r
    show (if (r == 0) then Except.error "Division by zero"
        else Except.ok (Int.tdiv l r)) = _
    by_cases h : r = 0
    · simp [h]
    · simp [h]
  refine ⟨hbase, ?_, rfl⟩
  intro l r
  rw [hbase]
  by_cases h : r = 0
  · simp [h]
  · simp [h]

/-! ## C5: pop condition and right-associativity of `^` -/

/-- C5: with both symbols present in the table, one step of the converter's
inner loop pops the stack top exactly when the incoming operator is
right-associative with strictly smaller precedence than the top, or
left-associative with precedence less than or equal to the top's; consequently
`^` chains right-to-left and `evaluate("2 ^ 3 ^ 2")` returns `512`, not `64`. -/
theorem c5_pop_condition_and_right_assoc :
    (∀ (tok top : String) (rest out : List String) (pt pp : Int),
        tblLookup operatorPrecedence tok = some pt →
        tblLookup operatorPrecedence top = some pp →
        top ≠ "(" →
        opLoop tok operatorPrecedence (top :: rest) out =
          if (isRightAssociative tok = true ∧ pt < pp) ∨
              (isRightAssociative tok = false ∧ pt ≤ pp) then
            opLoop tok operatorPrecedence rest (out ++ [top])
          else (operatorPrecedence, top :: rest, out)) ∧
    (evaluateS operatorPrecedence "2 ^ 3 ^ 2").1 = Except.ok 512 ∧
    (evaluateS operatorPrecedence "2 ^ 3 ^ 2").1 ≠ Except.ok 64 := by
  refine ⟨?_, rfl, ?_⟩
  · intro tok top rest out pt pp h1 h2 h3
    have htop : (top == "(") = false := by
      simpa [beq_eq_false_iff_ne] using h3
    have hstep : opLoop tok operatorPrecedence (top :: rest) out =
        if (isRightAssociative tok && decide (pt < pp)) ||
            (!isRightAssociative tok && decide (pt ≤ pp)) then
          opLoop tok operatorPrecedence rest (out ++ [top])
        else (operatorPrecedence, top :: rest, out) := by
      conv_lhs => rw [opLoop]
      rw [if_neg (by simp [htop])]
      simp only [tblIndex, h1, h2]
    rw [hstep]
    by_cases hra : isRightAssociative tok = true
    · by_cases hlt : pt < pp
      · rw [if_pos (by simp [hra, hlt]), if_pos (Or.inl ⟨hra, hlt⟩)]
      · rw [if_neg (by simp [hra, hlt]), if_neg ?_]
        intro hc
        rcases hc with ⟨_, h⟩ | ⟨hf, _⟩
        · exact hlt h
        · rw [hra] at hf; exact Bool.true_eq_false.mp hf
    · have hra2 : isRightAssociative tok = false := by
        cases hx : isRightAssociative tok
        · rfl
        · exact absurd hx hra
      by_cases hle : pt ≤ pp
      · rw [if_pos (by simp [hra2, hle]), if_pos (Or.inr ⟨hra2, hle⟩)]
      · rw [if_neg (by simp [hra2, hle]), if_neg ?_]
        intro hc
        rcases hc with ⟨hf, _⟩ | ⟨_, h⟩
        · rw [hra2] at hf; exact Bool.false_eq_true.mp hf
        · exact hle h
  · intro h
    rw [show (evaluateS operatorPrecedence "2 ^ 3 ^ 2").1 = Except.ok 512 from rfl] at h
    exact absurd (Except.ok.inj h) (by decide)

/-- Witness for `c5_pop_condition_and_right_assoc`: at `tok = top = "^"`
(equal precedence, right-associative) the loop does not pop. -/
theorem c5_pop_condition_witness :
    tblLookup operatorPrecedence "^" = some 7 ∧ ("^" : String) ≠ "(" ∧
    opLoop "^" operatorPrecedence ["^"] [] = (operatorPrecedence, ["^"], []) := by
  refine ⟨rfl, by decide, ?_⟩
  rw [c5_pop_condition_and_right_assoc.1 "^" "^" [] [] 7 7 rfl rfl (by decide)]
  rw [if_neg (by decide)]

/-! ## C6: unary-minus rewriting -/

/-- C6: in the single-character emission step of the tokenizer, `"neg"` is
emitted exactly when the character is `-` and either no token has been emitted
yet, the previous emitted token is `"("`, or the previous emitted token is a
key of the operator table; consequently `evaluate("-3 + 5") = 2`,
`evaluate("3 - -5") = 8` and `evaluate("(-3) * 2") = -6`. -/
theorem c6_unary_minus_rewrite :
    (∀ (t : Table) (toks : List String) (c : Char),
        ((emitSingle t toks c).getLast? = some "neg" ↔
          (c = '-' ∧ (toks = [] ∨ toks.getLastD "" = "(" ∨
            tblCount t (toks.getLastD "") = true)))) ∧
    evaluate "-3 + 5" = Except.ok 2 ∧
    evaluate "3 - -5" = Except.ok 8 ∧
    evaluate "(-3) * 2" = Except.ok (-6) := by
  refine ⟨?_, rfl, rfl, rfl⟩
  intro t toks c
  unfold emitSingle
  by_cases hc : (c == '-' &&
      (toks.isEmpty || toks.getLastD "" == "(" || tblCount t (toks.getLastD ""))) = true
  · rw [if_pos hc, List.getLast?_concat]
    simp only [Bool.and_eq_true, Bool.or_eq_true, beq_iff_eq, List.isEmpty_iff] at hc
    simpa [or_assoc] using hc
  · rw [if_neg hc, List.getLast?_concat]
    simp only [Bool.and_eq_true, Bool.or_eq_true, beq_iff_eq, List.isEmpty_iff] at hc
    constructor
    · intro hEq
      have hd := congrArg String.data (Option.some.inj hEq)
      simp [String.singleton] at hd
    · intro hp
      refine absurd ⟨hp.1, ?_⟩ hc
      rw [or_assoc]
      simpa using hp.2

/-! ## C9: lenient handling of unbalanced parentheses -/

/-- C9: the converter raises no error on unbalanced parentheses.  A right
parenthesis with no matching left parenthesis drains the whole stack to the
output and is itself dropped, and at end of input every operator still on the
stack — including any unmatched left parenthesis — is appended to the output;
concretely, `"3" ")"` converts to `["3"]`, `"(" "3"` converts to
`["3", "("]`, and `evaluate("3)")` returns `3`. -/
theorem c9_unbalanced_parens_tolerated :
    (∀ (t : Table) (toks stack out : List String), "(" ∉ stack →
        convertAux t (")" :: toks) stack out = convertAux t toks [] (out ++ stack)) ∧
    (∀ (t : Table) (stack out : List String),
        convertAux t [] stack out = (out ++ stack, t)) ∧
    convertToPostfixTokens operatorPrecedence ["3", ")"] = (["3"], operatorPrecedence) ∧
    convertToPostfixTokens operatorPrecedence ["(", "3"] = (["3", "("], operatorPrecedence) ∧
    (evaluateS operatorPrecedence "3)").1 = Except.ok 3 := by
  refine ⟨?_, fun t stack out => rfl, rfl, rfl, rfl⟩
  intro t toks stack out h
  have h2 : ∀ x ∈ stack, x ≠ "(" := fun x hx e => h (e ▸ hx)
  conv_lhs => rw [convertAux]
  rw [if_neg (by decide), if_neg (by decide), if_pos (by decide)]
  simp only [takeWhile_no_paren stack h2, dropWhile_no_paren stack h2]

/-- Witness for `c9_unbalanced_parens_tolerated`: an unmatched `")"` over the
paren-free stack `["+"]` empties it into the output. -/
theorem c9_unbalanced_parens_witness :
    ("(" ∉ (["+"] : List String)) ∧
    convertAux operatorPrecedence [")"] ["+"] ["1"] = (["1", "+"], operatorPrecedence) := by
  refine ⟨by decide, ?_⟩
  rw [c9_unbalanced_parens_tolerated.1 operatorPrecedence [] ["+"] ["1"] (by decide)]
  rfl

/-! ## C10: empty and whitespace-only input -/

/-- C10: on input consisting only of whitespace (or empty), the tokenizer
produces no tokens, validation succeeds, and the postfix evaluator fails with
the "leftover operands" error because its final value stack does not hold
exactly one value — so `evaluate` does not return an integer. -/
theorem c10_whitespace_only_input (s : String)
    (h : s.toList.all isSpaceC = true) :
    tokenizeExpression operatorPrecedence s = [] ∧
    validateTokenSequence operatorPrecedence (tokenizeExpression operatorPrecedence s) =
      Except.ok () ∧
    (evaluateS operatorPrecedence s).1 =
      Except.error "Expression evaluation error: leftover operands" := by
  have htok : tokenizeExpression operatorPrecedence s = [] :=
    tokAux_spaces operatorPrecedence _ _ _ (by simpa [List.all_eq_true] using h)
  refine ⟨htok, by rw [htok]; rfl, ?_⟩
  unfold evaluateS
  simp only [htok]
  rfl

/-- Witness for `c10_whitespace_only_input` at the two-space input. -/
theorem c10_whitespace_only_witness :
    ("  ".toList.all isSpaceC = true) ∧
    (evaluateS operatorPrecedence "  ").1 =
      Except.error "Expression evaluation error: leftover operands" :=
  ⟨by decide, (c10_whitespace_only_input "  " (by decide)).2.2⟩

/-! ## C7: the validator's error shapes -/

/-- A token that the validator treats as a binary operator: an operator-table
symbol that is not one of the unary operators. -/
def isBinaryTok (t : Table) (s : String) : Bool :=
  tblCount t s && !isUnaryOperator s

/-- The claim's five structural violation shapes at position `i` (with `prev`
the previous token or `""` at position 0, `next` the next token or `""` at the
end): a leading closing parenthesis, a leading binary operator, two binary
operators in a row, two number tokens in a row, and a unary operator
immediately followed by a binary operator. -/
def violationB (t : Table) (toks : List String) (i : Nat) : Bool :=
  let token := toks.getD i ""
  let prev := if 0 < i then toks.getD (i - 1) "" else ""
  let next := toks.getD (i + 1) ""
  (token == ")" && i == 0) ||
  (tblCount t token && !isUnaryOperator token && i == 0) ||
  (tblCount t token && !isUnaryOperator token &&
    (tblCount t prev && !isUnaryOperator prev)) ||
  ((headChar token).isDigit && !prev.isEmpty && (headChar prev).isDigit) ||
  (isUnaryOperator token && !next.isEmpty &&
    (tblCount t next && !isUnaryOperator next))

lemma checkToken_ok_iff (t : Table) (toks : List String) (i : Nat) :
    checkToken t toks i = Except.ok () ↔ violationB t toks i = false := by
  simp only [checkToken, violationB]
  generalize (toks.getD i "" == ")" && i == 0) = A
  generalize (tblCount t (toks.getD i "") && !isUnaryOperator (toks.getD i "") && i == 0) = B
  generalize (tblCount t (toks.getD i "") && !isUnaryOperator (toks.getD i "") &&
      (tblCount t (if 0 < i then toks.getD (i - 1) "" else "") &&
        !isUnaryOperator (if 0 < i then toks.getD (i - 1) "" else ""))) = C
  generalize ((headChar (toks.getD i "")).isDigit &&
      !(if 0 < i then toks.getD (i - 1) "" else "").isEmpty &&
      (headChar (if 0 < i then toks.getD (i - 1) "" else "")).isDigit) = D
  generalize (isUnaryOperator (toks.getD i "") && !(toks.getD (i + 1) "").isEmpty &&
      (tblCount t (toks.getD (i + 1) "") && !isUnaryOperator (toks.getD (i + 1) ""))) = E
  cases A <;> cases B <;> cases C <;> cases D <;> cases E <;> simp

lemma validateAux_succ_step (t : Table) (toks : List String) (n i : Nat)
    (hi : i < toks.length) :
    validateAux t toks (n + 1) i =
      match checkToken t toks i with
      | Except.ok _ => validateAux t toks n (i + 1)
      | Except.error e => Except.error e := by
  conv_lhs => rw [validateAux]
  rw [if_pos hi]

lemma validateAux_succ_stop (t : Table) (toks : List String) (n i : Nat)
    (hi : ¬ i < toks.length) :
    validateAux t toks (n + 1) i = Except.ok () := by
  conv_lhs => rw [validateAux]
  rw [if_neg hi]

lemma validateAux_ok_iff (t : Table) (toks : List String) :
    ∀ (fuel i : Nat), toks.length ≤ i + fuel →
      (validateAux t toks fuel i = Except.ok () ↔
        ∀ j, i ≤ j → j < toks.length → checkToken t toks j = Except.ok ()) := by
  intro fuel
  induction fuel with
  | zero =>
    intro i hle
    exact ⟨fun _ j hij hj => absurd hj (by omega), fun _ => rfl⟩
  | succ n ih =>
    intro i hle
    by_cases hi : i < toks.length
    · rw [validateAux_succ_step t toks n i hi]
      cases hc : checkToken t toks i with
      | ok u =>
        cases u
        show validateAux t toks n (i + 1) = Except.ok () ↔ _
        rw [ih (i + 1) (by omega)]
        constructor
        · intro H j hij hj
          rcases Nat.eq_or_lt_of_le hij with hij2 | hij2
          · rw [← hij2]; exact hc
          · exact H j hij2 hj
        · intro H j hij hj
          exact H j (by omega) hj
      | error e =>
        show Except.error e = Except.ok () ↔ _
        constructor
        · intro h; exact absurd h (by simp)
        · intro H
          have := H i le_rfl hi
          rw [hc] at this
          exact absurd this (by simp)
    · rw [validateAux_succ_stop t toks n i hi]
      exact ⟨fun _ j hij hj => absurd hj (by omega), fun _ => rfl⟩

lemma validateAux_error_first (t : Table) (toks : List String) :
    ∀ (fuel i : Nat) (e : String), validateAux t toks fuel i = Except.error e →
      ∃ j, i ≤ j ∧ j < toks.length ∧ checkToken t toks j = Except.error e ∧
        ∀ k, i ≤ k → k < j → checkToken t toks k = Except.ok () := by
  intro fuel
  induction fuel with
  | zero =>
    intro i e h
    exact absurd h (by simp [validateAux])
  | succ n ih =>
    intro i e h
    by_cases hi : i < toks.length
    · rw [validateAux_succ_step t toks n i hi] at h
      cases hc : checkToken t toks i with
      | ok u =>
        cases u
        rw [hc] at h
        have h2 : validateAux t toks n (i + 1) = Except.error e := h
        obtain ⟨j, hj1, hj2, hj3, hj4⟩ := ih (i + 1) e h2
        refine ⟨j, by omega, hj2, hj3, ?_⟩
        intro k hk1 hk2
        rcases Nat.eq_or_lt_of_le hk1 with hk | hk
        · rw [← hk]; exact hc
        · exact hj4 k hk hk2
      | error e2 =>
        rw [hc] at h
        have h2 : Except.error (ε := String) (α := Unit) e2 = Except.error e := h
        have he : e2 = e := by
          have := congrArg (fun x => match x with
            | Except.error m => m
            | Except.ok _ => "") h2
          simpa using this
        refine ⟨i, le_rfl, hi, by rw [hc, he], ?_⟩
        intro k hk1 hk2
        exact absurd hk2 (by omega)
    · rw [validateAux_succ_stop t toks n i hi] at h
      exact absurd h (by simp)

/-- C7: the per-index check succeeds exactly when none of the claim's five
structural shapes is present at that index; the whole validator succeeds
exactly when no index has a violation; a validation failure is the error of
the first violating index, every earlier index checking clean; and the four
concrete inputs of the claim each fail with the corresponding error. -/
theorem c7_validator_first_violation :
    (∀ (t : Table) (toks : List String) (i : Nat),
        checkToken t toks i = Except.ok () ↔ violationB t toks i = false) ∧
    (∀ (t : Table) (toks : List String),
        validateTokenSequence t toks = Except.ok () ↔
          ∀ i, i < toks.length → violationB t toks i = false) ∧
    (∀ (t : Table) (toks : List String) (e : String),
        validateTokenSequence t toks = Except.error e →
          ∃ i, i < toks.length ∧ checkToken t toks i = Except.error e ∧
            ∀ j, j < i → checkToken t toks j = Except.ok ()) ∧
    evaluate "* 3 + 2" =
      Except.error "Expression can’t start with a binary operator @ char: 0" ∧
    evaluate ") 3" =
      Except.error "Expression can’t start with a closing parenthesis @ char: 0" ∧
    evaluate "3 4" = Except.error "Two operands in a row @ char: 1" ∧
    evaluate "3 + + 4" = Except.error "Two binary operators in a row @ char: 2" := by
  refine ⟨checkToken_ok_iff, ?_, ?_, rfl, rfl, rfl, rfl⟩
  · intro t toks
    unfold validateTokenSequence
    rw [validateAux_ok_iff t toks toks.length 0 (by omega)]
    constructor
    · intro H i hi
      exact (checkToken_ok_iff t toks i).mp (H i (by omega) hi)
    · intro H j _ hj
      exact (checkToken_ok_iff t toks j).mpr (H j hj)
  · intro t toks e h
    obtain ⟨j, _, hj2, hj3, hj4⟩ := validateAux_error_first t toks toks.length 0 e h
    exact ⟨j, hj2, hj3, fun k hk => hj4 k (by omega) hk⟩

/-- Witness for `c7_validator_first_violation`: the token sequence `[")"]`
fails at index `0` with the leading-closing-parenthesis error. -/
theorem c7_validator_witness :
    ∃ i, i < ([")"] : List String).length ∧
      checkToken operatorPrecedence [")"] i =
        Except.error "Expression can’t start with a closing parenthesis @ char: 0" ∧
      ∀ j, j < i → checkToken operatorPrecedence [")"] j = Except.ok () :=
  c7_validator_first_violation.2.2.1 operatorPrecedence [")"] _ rfl

/-! ## C4: correctness on the `+ - * /` fragment

The reference side below is written from the spec's words, not from the
source: a well-formed expression over unsigned integer literals, the four
binary operators, parentheses and whitespace is one whose token sequence
derives from the standard unambiguous grammar

  E → E + T | E - T | T,   T → T * F | T / F | F,   F → number | ( E ),

and its value is the usual bottom-up evaluation with truncating integer
division.  `Parses` is the derivation relation and `refEval` the reference
value; the theorem `c4_arith_fragment_correct` states that the full pipeline
returns exactly that value. -/

/-- Abstract syntax of the fragment.  `num` keeps the literal's token text so
that rendering back to tokens is exact. -/
inductive AExp where
  | num (s : String)
  | bin (op : String) (l : AExp) (r : AExp)
  | paren (e : AExp)

/-- A number token: nonempty and all decimal digits. -/
def isNumToken (s : String) : Bool :=
  !s.toList.isEmpty && s.toList.all Char.isDigit

/-- Reference value, following the spec's words: standard arithmetic on the
tree, `/` is truncating integer division and fails (`none`) on a zero
divisor. -/
def refEval : AExp → Option Int
  | .num s => some (stoi s)
  | .paren e => refEval e
  | .bin op l r =>
    match refEval l, refEval r with
    | some a, some b =>
      if op = "+" then some (a + b)
      else if op = "-" then some (a - b)
      else if op = "*" then some (a * b)
      else if op = "/" then (if b = 0 then none else some (Int.tdiv a b))
      else none
    | _, _ => none

/-- Grammar roles: expression, term, factor. -/
inductive Role where
  | rE
  | rT
  | rF

/-- `Parses r ts e`: token list `ts` derives from nonterminal `r` with tree
`e` in the standard precedence grammar of `+ - * /` with parentheses. -/
inductive Parses : Role → List String → AExp → Prop where
  | numF {s : String} : isNumToken s = true → Parses .rF [s] (.num s)
  | parenF {ts : List String} {e : AExp} :
      Parses .rE ts e → Parses .rF ("(" :: ts ++ [")"]) (.paren e)
  | liftT {ts : List String} {e : AExp} : Parses .rF ts e → Parses .rT ts e
  | mulT {ts1 ts2 : List String} {op : String} {l r : AExp} :
      (op = "*" ∨ op = "/") → Parses .rT ts1 l → Parses .rF ts2 r →
      Parses .rT (ts1 ++ op :: ts2) (.bin op l r)
  | liftE {ts : List String} {e : AExp} : Parses .rT ts e → Parses .rE ts e
  | addE {ts1 ts2 : List String} {op : String} {l r : AExp} :
      (op = "+" ∨ op = "-") → Parses .rE ts1 l → Parses .rT ts2 r →
      Parses .rE (ts1 ++ op :: ts2) (.bin op l r)

/-- Postfix rendering of a tree (parentheses disappear). -/
def postfixOf : AExp → List String
  | .num s => [s]
  | .paren e => postfixOf e
  | .bin op l r => postfixOf l ++ postfixOf r ++ [op]

def isMulOp (op : String) : Bool := op == "*" || op == "/"

def isAddOp (op : String) : Bool := op == "+" || op == "-"

/-- Operators still pending on the converter's stack after a term. -/
def pendT : AExp → List String
  | .bin op _ _ => if isMulOp op then [op] else []
  | _ => []

/-- Operators still pending on the converter's stack after an expression. -/
def pendE : AExp → List String
  | .bin op _ r =>
    if isAddOp op then pendT r ++ [op]
    else if isMulOp op then [op]
    else []
  | _ => []

/-- Output already emitted after a term (its postfix minus the pending part). -/
def doneT : AExp → List String
  | .num s => [s]
  | .paren e => postfixOf e
  | .bin op l r =>
    if isMulOp op then postfixOf l ++ postfixOf r
    else postfixOf (.bin op l r)

/-- Output already emitted after an expression. -/
def doneE : AExp → List String
  | .num s => [s]
  | .paren e => postfixOf e
  | .bin op l r =>
    if isAddOp op then postfixOf l ++ doneT r
    else if isMulOp op then postfixOf l ++ postfixOf r
    else postfixOf (.bin op l r)

def pendR : Role → AExp → List String
  | .rF, _ => []
  | .rT, e => pendT e
  | .rE, e => pendE e

def doneR : Role → AExp → List String
  | .rF, e => postfixOf e
  | .rT, e => doneT e
  | .rE, e => doneE e

/-- Stack contexts in which each nonterminal is processed: an expression sits
above an empty stack or a `"("`; a term additionally above a pending `+` or
`-`; a factor anywhere. -/
def Guard : Role → List String → Prop
  | .rF, _ => True
  | .rT, stk =>
    stk = [] ∨ stk.head? = some "(" ∨ stk.head? = some "+" ∨ stk.head? = some "-"
  | .rE, stk => stk = [] ∨ stk.head? = some "("

/-- Trees of the fragment: every literal is a number token and every operator
is one of the four. -/
def wfA : AExp → Bool
  | .num s => isNumToken s
  | .paren e => wfA e
  | .bin op l r => (isAddOp op || isMulOp op) && wfA l && wfA r

lemma isNumToken_head {s : String} (h : isNumToken s = true) :
    (headChar s).isDigit = true := by
  unfold isNumToken at h
  unfold headChar
  rcases hs : s.toList with _ | ⟨c, cs⟩
  · rw [hs] at h; simp at h
  · rw [hs] at h
    simp only [Bool.and_eq_true, List.all_cons] at h
    simpa using h.2.1

lemma done_pendT (e : AExp) : doneT e ++ pendT e = postfixOf e := by
  cases e with
  | num s => simp [doneT, pendT, postfixOf]
  | paren e => simp [doneT, pendT, postfixOf]
  | bin op l r =>
    by_cases h : isMulOp op = true
    · simp [doneT, pendT, h, postfixOf]
    · simp [doneT, pendT, h, postfixOf]

lemma done_pendE (e : AExp) : doneE e ++ pendE e = postfixOf e := by
  cases e with
  | num s => simp [doneE, pendE, postfixOf]
  | paren e => simp [doneE, pendE, postfixOf]
  | bin op l r =>
    by_cases ha : isAddOp op = true
    · simp only [doneE, pendE, ha, if_true]
      rw [List.append_assoc, ← List.append_assoc (doneT r), done_pendT]
      simp [postfixOf]
    · by_cases hm : isMulOp op = true <;> simp [doneE, pendE, ha, hm, postfixOf]

lemma parsesF_pend {ts : List String} {e : AExp} (d : Parses .rF ts e) :
    pendT e = [] ∧ doneT e = postfixOf e ∧ pendE e = [] ∧ doneE e = postfixOf e := by
  cases d with
  | numF h => simp [pendT, doneT, pendE, doneE, postfixOf]
  | parenF d2 => simp [pendT, doneT, pendE, doneE, postfixOf]

lemma parsesT_pend_mem {ts : List String} {e : AExp} (d : Parses .rT ts e) :
    ∀ x ∈ pendT e, x = "*" ∨ x = "/" := by
  cases d with
  | liftT df =>
    rw [(parsesF_pend df).1]
    intro x hx
    simp at hx
  | @mulT ts1 ts2 op l r hop d1 d2 =>
    have hm : isMulOp op = true := by rcases hop with h | h <;> simp [isMulOp, h]
    intro x hx
    simp [pendT, hm] at hx
    rw [hx]
    exact hop

lemma parsesT_pend {ts : List String} {e : AExp} (d : Parses .rT ts e) :
    pendE e = pendT e ∧ doneE e = doneT e := by
  cases d with
  | liftT df =>
    rcases parsesF_pend df with ⟨h1, h2, h3, h4⟩
    rw [h1, h2, h3, h4]
    exact ⟨rfl, rfl⟩
  | @mulT ts1 ts2 op l r hop d1 d2 =>
    have hm : isMulOp op = true := by rcases hop with h | h <;> simp [isMulOp, h]
    have ha : isAddOp op = false := by rcases hop with h | h <;> simp [isAddOp, h]
    constructor
    · simp [pendE, pendT, hm, ha]
    · simp [doneE, doneT, hm, ha]

lemma parsesE_pend_mem {ts : List String} {e : AExp} (d : Parses .rE ts e) :
    ∀ x ∈ pendE e, x = "+" ∨ x = "-" ∨ x = "*" ∨ x = "/" := by
  cases d with
  | liftE dt =>
    intro x hx
    rw [(parsesT_pend dt).1] at hx
    rcases parsesT_pend_mem dt x hx with h | h
    · exact Or.inr (Or.inr (Or.inl h))
    · exact Or.inr (Or.inr (Or.inr h))
  | @addE ts1 ts2 op l r hop d1 d2 =>
    have ha : isAddOp op = true := by rcases hop with h | h <;> simp [isAddOp, h]
    intro x hx
    simp [pendE, ha] at hx
    rcases hx with hx | hx
    · rcases parsesT_pend_mem d2 x hx with h | h
      · exact Or.inr (Or.inr (Or.inl h))
      · exact Or.inr (Or.inr (Or.inr h))
    · rw [hx]
      rcases hop with h | h
      · exact Or.inl h
      · exact Or.inr (Or.inl h)

/-- The converter's inner loop under a `+` or `-`: every pending `+ - * /`
operator (precedence at least 5) is popped; popping stops at an empty stack or
at a `"("`.  The table is left unchanged because every symbol involved is one
of its keys. -/
lemma opLoop_add {op : String} (hop : op = "+" ∨ op = "-") :
    ∀ (pend stk out : List String),
      (∀ x ∈ pend, x = "+" ∨ x = "-" ∨ x = "*" ∨ x = "/") →
      (stk = [] ∨ stk.head? = some "(") →
      opLoop op operatorPrecedence (pend ++ stk) out =
        (operatorPrecedence, stk, out ++ pend) := by
  intro pend
  induction pend with
  | nil =>
    intro stk out _ hstk
    rcases hstk with h | h
    · subst h; simp [opLoop]
    · rcases stk with _ | ⟨top, rest⟩
      · simp at h
      · simp at h
        subst h
        simp [opLoop]
  | cons x xs ih =>
    intro stk out hmem hstk
    have hx := hmem x (by simp)
    have hstep : opLoop op operatorPrecedence ((x :: xs) ++ stk) out =
        opLoop op operatorPrecedence (xs ++ stk) (out ++ [x]) := by
      rcases hop with h1 | h1 <;> rcases hx with h2 | h2 | h2 | h2 <;>
        subst h1 <;> subst h2 <;> rfl
    rw [hstep, ih stk (out ++ [x]) (fun y hy => hmem y (by simp [hy])) hstk]
    simp

/-- The converter's inner loop under a `*` or `/`: pending `*` and `/`
operators (precedence 6) are popped; popping stops at an empty stack, a
`"("`, or a pending `+`/`-` (precedence 5 < 6). -/
lemma opLoop_mul {op : String} (hop : op = "*" ∨ op = "/") :
    ∀ (pend stk out : List String),
      (∀ x ∈ pend, x = "*" ∨ x = "/") →
      (stk = [] ∨ stk.head? = some "(" ∨ stk.head? = some "+" ∨ stk.head? = some "-") →
      opLoop op operatorPrecedence (pend ++ stk) out =
        (operatorPrecedence, stk, out ++ pend) := by
  intro pend
  induction pend with
  | nil =>
    intro stk out _ hstk
    rcases hstk with h | h | h | h
    · subst h; simp [opLoop]
    · rcases stk with _ | ⟨top, rest⟩
      · simp at h
      · simp at h
        subst h
        simp [opLoop]
    · rcases stk with _ | ⟨top, rest⟩
      · simp at h
      · simp at h
        subst h
        rcases hop with h1 | h1 <;> subst h1 <;> rw [List.append_nil] <;> rfl
    · rcases stk with _ | ⟨top, rest⟩
      · simp at h
      · simp at h
        subst h
        rcases hop with h1 | h1 <;> subst h1 <;> rw [List.append_nil] <;> rfl
  | cons x xs ih =>
    intro stk out hmem hstk
    have hx := hmem x (by simp)
    have hstep : opLoop op operatorPrecedence ((x :: xs) ++ stk) out =
        opLoop op operatorPrecedence (xs ++ stk) (out ++ [x]) := by
      rcases hop with h1 | h1 <;> rcases hx with h2 | h2 <;>
        subst h1 <;> subst h2 <;> rfl
    rw [hstep, ih stk (out ++ [x]) (fun y hy => hmem y (by simp [hy])) hstk]
    simp

lemma takeWhile_app_paren (pend stk : List String)
    (h : ∀ x ∈ pend, (x != "(") = true) :
    (pend ++ "(" :: stk).takeWhile (fun s => s != "(") = pend := by
  induction pend with
  | nil => simp [List.takeWhile]
  | cons a l ih =>
    have ha := h a (by simp)
    simp [List.takeWhile, ha, ih (fun x hx => h x (by simp [hx]))]

lemma dropWhile_app_paren (pend stk : List String)
    (h : ∀ x ∈ pend, (x != "(") = true) :
    (pend ++ "(" :: stk).dropWhile (fun s => s != "(") = "(" :: stk := by
  induction pend with
  | nil => simp [List.dropWhile]
  | cons a l ih =>
    have ha := h a (by simp)
    simp [List.dropWhile, ha, ih (fun x hx => h x (by simp [hx]))]

/-- Main converter lemma: processing the tokens of a derivation from stack
context `stk` (in its role's guard) emits the derivation's finished output and
leaves its pending operators on top of `stk`, with the operator table
untouched. -/
lemma convert_parses {r : Role} {ts : List String} {e : AExp} (d : Parses r ts e) :
    ∀ (rest stk out : List String), Guard r stk →
      convertAux operatorPrecedence (ts ++ rest) stk out =
        convertAux operatorPrecedence rest (pendR r e ++ stk) (out ++ doneR r e) := by
  induction d with
  | @numF s h =>
    intro rest stk out _
    have hd : (headChar s).isDigit = true := isNumToken_head h
    show convertAux operatorPrecedence (s :: rest) stk out = _
    conv_lhs => rw [convertAux]
    rw [if_pos hd]
    simp [pendR, doneR, postfixOf]
  | @parenF ts1 e1 d1 ih =>
    intro rest stk out _
    have hre : (("(" :: ts1 ++ [")"]) ++ rest) = "(" :: (ts1 ++ (")" :: rest)) := by
      simp
    rw [hre]
    conv_lhs => rw [convertAux]
    rw [if_neg (by decide), if_pos (by decide)]
    rw [ih (")" :: rest) ("(" :: stk) out (Or.inr rfl)]
    simp only [pendR, doneR]
    conv_lhs => rw [convertAux]
    rw [if_neg (by decide), if_neg (by decide), if_pos (by decide)]
    have hne : ∀ x ∈ pendE e1, (x != "(") = true := by
      intro x hx
      rcases parsesE_pend_mem d1 x hx with h | h | h | h <;> simp [h]
    simp only [takeWhile_app_paren _ _ hne, dropWhile_app_paren _ _ hne]
    show convertAux operatorPrecedence rest stk ((out ++ doneE e1) ++ pendE e1) = _
    rw [List.append_assoc, done_pendE]
    simp [pendR, doneR, postfixOf]
  | @liftT ts1 e1 d1 ih =>
    intro rest stk out _
    rcases parsesF_pend d1 with ⟨h1, h2, _, _⟩
    rw [ih rest stk out trivial]
    simp [pendR, doneR, h1, h2]
  | @mulT ts1 ts2 op l rr hop d1 d2 ih1 ih2 =>
    intro rest stk out hg
    have hm : isMulOp op = true := by rcases hop with h | h <;> simp [isMulOp, h]
    have hd : (headChar op).isDigit = false := by
      rcases hop with h | h <;> subst h <;> decide
    have hlp : (op == "(") = false := by rcases hop with h | h <;> subst h <;> decide
    have hrp : (op == ")") = false := by rcases hop with h | h <;> subst h <;> decide
    have hre : ((ts1 ++ op :: ts2) ++ rest) = ts1 ++ (op :: (ts2 ++ rest)) := by simp
    rw [hre, ih1 (op :: (ts2 ++ rest)) stk out hg]
    simp only [pendR, doneR]
    conv_lhs => rw [convertAux]
    rw [if_neg (by simp [hd]), if_neg (by simp [hlp]), if_neg (by simp [hrp])]
    rw [opLoop_mul hop (pendT l) stk (out ++ doneT l) (parsesT_pend_mem d1) hg]
    show convertAux operatorPrecedence (ts2 ++ rest) (op :: stk)
      ((out ++ doneT l) ++ pendT l) = _
    rw [List.append_assoc, done_pendT]
    rw [ih2 rest (op :: stk) (out ++ postfixOf l) trivial]
    simp only [pendR, doneR]
    simp [pendT, doneT, hm, List.append_assoc]
  | @liftE ts1 e1 d1 ih =>
    intro rest stk out hg
    have hg2 : Guard .rT stk := by
      rcases hg with h | h
      · exact Or.inl h
      · exact Or.inr (Or.inl h)
    rw [ih rest stk out hg2]
    rcases parsesT_pend d1 with ⟨h1, h2⟩
    simp [pendR, doneR, h1, h2]
  | @addE ts1 ts2 op l rr hop d1 d2 ih1 ih2 =>
    intro rest stk out hg
    have ha : isAddOp op = true := by rcases hop with h | h <;> simp [isAddOp, h]
    have hd : (headChar op).isDigit = false := by
      rcases hop with h | h <;> subst h <;> decide
    have hlp : (op == "(") = false := by rcases hop with h | h <;> subst h <;> decide
    have hrp : (op == ")") = false := by rcases hop with h | h <;> subst h <;> decide
    have hre : ((ts1 ++ op :: ts2) ++ rest) = ts1 ++ (op :: (ts2 ++ rest)) := by simp
    rw [hre, ih1 (op :: (ts2 ++ rest)) stk out hg]
    simp only [pendR, doneR]
    conv_lhs => rw [convertAux]
    rw [if_neg (by simp [hd]), if_neg (by simp [hlp]), if_neg (by simp [hrp])]
    rw [opLoop_add hop (pendE l) stk (out ++ doneE l) (parsesE_pend_mem d1) hg]
    show convertAux operatorPrecedence (ts2 ++ rest) (op :: stk)
      ((out ++ doneE l) ++ pendE l) = _
    rw [List.append_assoc, done_pendE]
    have hgT : Guard .rT (op :: stk) := by
      rcases hop with h | h
      · exact Or.inr (Or.inr (Or.inl (by simp [h])))
      · exact Or.inr (Or.inr (Or.inr (by simp [h])))
    rw [ih2 rest (op :: stk) (out ++ postfixOf l) hgT]
    simp only [pendR, doneR]
    simp [pendE, doneE, ha, List.append_assoc]

/-- The converter maps a full expression derivation to its postfix rendering
and leaves the table unchanged. -/
lemma convert_correct {ts : List String} {e : AExp} (d : Parses .rE ts e) :
    convertToPostfixTokens operatorPrecedence ts = (postfixOf e, operatorPrecedence) := by
  unfold convertToPostfixTokens
  have h := convert_parses d [] [] [] (Or.inl rfl)
  rw [List.append_nil] at h
  rw [h]
  simp only [pendR, doneR, List.append_nil, List.nil_append]
  show (doneE e ++ pendE e, operatorPrecedence) = _
  rw [done_pendE]

lemma parses_wf {r : Role} {ts : List String} {e : AExp} (d : Parses r ts e) :
    wfA e = true := by
  induction d with
  | numF h => simpa [wfA] using h
  | parenF d ih => simpa [wfA] using ih
  | liftT d ih => exact ih
  | @mulT ts1 ts2 op l rr hop d1 d2 ih1 ih2 =>
    have : isMulOp op = true := by rcases hop with h | h <;> simp [isMulOp, h]
    simp [wfA, ih1, ih2, this]
  | liftE d ih => exact ih
  | @addE ts1 ts2 op l rr hop d1 d2 ih1 ih2 =>
    have : isAddOp op = true := by rcases hop with h | h <;> simp [isAddOp, h]
    simp [wfA, ih1, ih2, this]

/-- One step of `evalPostfixAux` on a token. -/
lemma evalPostfixAux_cons (tok : String) (toks : List String) (values : List Int) :
    evalPostfixAux (tok :: toks) values =
      if (headChar tok).isDigit then evalPostfixAux toks (stoi tok :: values)
      else if isUnaryOperator tok then
        (match values with
          | [] => Except.error "Missing operand for unary operator"
          | v :: rest =>
            match calculateUnaryOperation tok v with
            | Except.ok r => evalPostfixAux toks (r :: rest)
            | Except.error e => Except.error e)
      else
        (match values with
          | right :: left :: rest =>
            match calculateBinaryOperation tok left right with
            | Except.ok r => evalPostfixAux toks (r :: rest)
            | Except.error e => Except.error e
          | _ => Except.error "Missing operands for binary operator") := rfl

/-- Postfix evaluation of a rendered tree consumes exactly the tree's tokens:
it pushes the reference value when it exists and fails with the
division-by-zero error otherwise. -/
lemma evalRPN : ∀ (e : AExp), wfA e = true → ∀ (rest : List String) (st : List Int),
    evalPostfixAux (postfixOf e ++ rest) st =
      (match refEval e with
        | some v => evalPostfixAux rest (v :: st)
        | none => Except.error "Division by zero") := by
  intro e
  induction e with
  | num s =>
    intro hwf rest st
    have hd : (headChar s).isDigit = true := isNumToken_head (by simpa [wfA] using hwf)
    show evalPostfixAux (s :: rest) st = _
    rw [evalPostfixAux_cons, if_pos hd]
    simp [refEval]
  | paren e1 ih =>
    intro hwf rest st
    show evalPostfixAux (postfixOf e1 ++ rest) st = _
    rw [ih (by simpa [wfA] using hwf) rest st]
    simp [refEval]
  | bin op l rr ihl ihr =>
    intro hwf rest st
    have hwf3 : (isAddOp op || isMulOp op) = true ∧ wfA l = true ∧ wfA rr = true := by
      simpa [wfA, Bool.and_eq_true, and_assoc] using hwf
    have hop : op = "+" ∨ op = "-" ∨ op = "*" ∨ op = "/" := by
      have h := hwf3.1
      simp only [isAddOp, isMulOp, Bool.or_eq_true, beq_iff_eq] at h
      tauto
    have hre : postfixOf (AExp.bin op l rr) ++ rest =
        postfixOf l ++ (postfixOf rr ++ (op :: rest)) := by
      simp [postfixOf]
    rw [hre, ihl hwf3.2.1]
    cases hl : refEval l with
    | none => cases hr : refEval rr <;> simp [refEval, hl, hr]
    | some a =>
      show evalPostfixAux (postfixOf rr ++ op :: rest) (a :: st) = _
      rw [ihr hwf3.2.2]
      cases hr : refEval rr with
      | none => simp [refEval, hl, hr]
      | some b =>
        rcases hop with h | h | h | h
        · subst h
          show evalPostfixAux rest ((a + b) :: st) = _
          simp [refEval, hl, hr]
        · subst h
          show evalPostfixAux rest ((a - b) :: st) = _
          simp [refEval, hl, hr]
        · subst h
          show evalPostfixAux rest ((a * b) :: st) = _
          simp [refEval, hl, hr]
        · subst h
          by_cases hb : b = 0
          · have hcb : calculateBinaryOperation "/" a b =
                Except.error "Division by zero" := by
              show (if (b == 0) then Except.error "Division by zero"
                  else Except.ok (Int.tdiv a b)) = _
              rw [if_pos (by simpa using hb)]
            show (match calculateBinaryOperation "/" a b with
              | Except.ok r => evalPostfixAux rest (r :: st)
              | Except.error e => Except.error e) = _
            rw [hcb]
            simp [refEval, hl, hr, hb]
          · have hcb : calculateBinaryOperation "/" a b =
                Except.ok (Int.tdiv a b) := by
              show (if (b == 0) then Except.error "Division by zero"
                  else Except.ok (Int.tdiv a b)) = _
              rw [if_neg (by simpa using hb)]
            show (match calculateBinaryOperation "/" a b with
              | Except.ok r => evalPostfixAux rest (r :: st)
              | Except.error e => Except.error e) = _
            rw [hcb]
            simp [refEval, hl, hr, hb]

/-- Tokens of the fragment. -/
def fragTok (s : String) : Bool :=
  isNumToken s || s == "+" || s == "-" || s == "*" || s == "/" || s == "(" || s == ")"

/-- A token that can start a derivation: a number or `"("`. -/
def StartsTok (s : String) : Prop := (headChar s).isDigit = true ∨ s = "("

/-- A token that can end a derivation: a number or `")"`. -/
def EndsTok (s : String) : Prop := (headChar s).isDigit = true ∨ s = ")"

/-- Adjacent tokens of a derivation are never two binary operators nor two
numbers. -/
def goodPair (a b : String) : Prop :=
  ¬(isBinaryTok operatorPrecedence a = true ∧ isBinaryTok operatorPrecedence b = true) ∧
  ¬((headChar a).isDigit = true ∧ (headChar b).isDigit = true)

/-- No key of the initial operator table starts with a digit. -/
lemma digit_not_table {s : String} (h : (headChar s).isDigit = true) :
    tblCount operatorPrecedence s = false := by
  cases hc : tblCount operatorPrecedence s
  · rfl
  · exfalso
    unfold tblCount tblLookup at hc
    cases hf : List.find? (fun p => p.1 == s) operatorPrecedence with
    | none => rw [hf] at hc; simp at hc
    | some p =>
      have hmem : p ∈ operatorPrecedence := List.mem_of_find?_eq_some hf
      have hps : p.1 = s := by simpa using List.find?_some hf
      have hs : s ∈ operatorPrecedence.map Prod.fst := by
        rw [← hps]
        exact List.mem_map_of_mem Prod.fst hmem
      simp [operatorPrecedence] at hs
      rcases hs with rfl | rfl | rfl | rfl | rfl | rfl | rfl | rfl | rfl | rfl | rfl |
        rfl | rfl | rfl | rfl | rfl | rfl | rfl <;> exact absurd h (by decide)

lemma fragTok_not_unary {s : String} (h : fragTok s = true) :
    isUnaryOperator s = false := by
  cases hu : isUnaryOperator s
  · rfl
  · exfalso
    have hs : s = "!" ∨ s = "++" ∨ s = "--" ∨ s = "neg" := by
      have h2 := hu
      simp only [isUnaryOperator, Bool.or_eq_true, beq_iff_eq] at h2
      tauto
    rcases hs with rfl | rfl | rfl | rfl <;> exact absurd h (by decide)

lemma goodPair_lparen (y : String) : goodPair "(" y := by
  constructor
  · rintro ⟨h, _⟩
    exact absurd h (by decide)
  · rintro ⟨h, _⟩
    exact absurd h (by decide)

lemma goodPair_rparen (x : String) : goodPair x ")" := by
  constructor
  · rintro ⟨_, h⟩
    exact absurd h (by decide)
  · rintro ⟨_, h⟩
    exact absurd h (by decide)

lemma goodPair_op_start {op y : String}
    (hop4 : op = "+" ∨ op = "-" ∨ op = "*" ∨ op = "/") (hy : StartsTok y) :
    goodPair op y := by
  constructor
  · rintro ⟨_, hb⟩
    rcases hy with h | h
    · unfold isBinaryTok at hb
      rw [digit_not_table h] at hb
      simp at hb
    · subst h
      exact absurd hb (by decide)
  · rintro ⟨hd, _⟩
    rcases hop4 with h | h | h | h <;> subst h <;> exact absurd hd (by decide)

lemma goodPair_end_op {x op : String} (hx : EndsTok x)
    (hop4 : op = "+" ∨ op = "-" ∨ op = "*" ∨ op = "/") :
    goodPair x op := by
  constructor
  · rintro ⟨hb, _⟩
    rcases hx with h | h
    · unfold isBinaryTok at hb
      rw [digit_not_table h] at hb
      simp at hb
    · subst h
      exact absurd hb (by decide)
  · rintro ⟨_, hd⟩
    rcases hop4 with h | h | h | h <;> subst h <;> exact absurd hd (by decide)

/-- Structure invariants of a derivation's token list. -/
def TokStruct (ts : List String) : Prop :=
  ts ≠ [] ∧ (∀ h, ts.head? = some h → StartsTok h) ∧
    (∀ h, ts.getLast? = some h → EndsTok h) ∧
    List.Chain' goodPair ts ∧ (∀ x ∈ ts, fragTok x = true)

lemma struct_binop {ts1 ts2 : List String} {op : String}
    (hop4 : op = "+" ∨ op = "-" ∨ op = "*" ∨ op = "/")
    (h1 : TokStruct ts1) (h2 : TokStruct ts2) : TokStruct (ts1 ++ op :: ts2) := by
  obtain ⟨hne1, hhd1, hlast1, hch1, hfrag1⟩ := h1
  obtain ⟨hne2, hhd2, hlast2, hch2, hfrag2⟩ := h2
  refine ⟨by simp, ?_, ?_, ?_, ?_⟩
  · intro x hx
    rw [List.head?_append_of_ne_nil ts1 hne1] at hx
    exact hhd1 x hx
  · intro x hx
    rw [List.getLast?_append_cons,
      show (op :: ts2) = [op] ++ ts2 from rfl,
      List.getLast?_append_of_ne_nil [op] hne2] at hx
    exact hlast2 x hx
  · apply List.Chain'.append hch1
    · rw [List.chain'_cons']
      refine ⟨?_, hch2⟩
      intro y hy
      exact goodPair_op_start hop4 (hhd2 y (by rwa [Option.mem_def] at hy))
    · intro x hx y hy
      rw [Option.mem_def, show (op :: ts2).head? = some op from rfl] at hy
      injection hy with hy
      subst hy
      exact goodPair_end_op (hlast1 x (by rwa [Option.mem_def] at hx)) hop4
  · intro x hx
    simp at hx
    rcases hx with hx | hx | hx
    · exact hfrag1 x hx
    · subst hx
      rcases hop4 with h | h | h | h <;> subst h <;> decide
    · exact hfrag2 x hx

lemma parses_struct {r : Role} {ts : List String} {e : AExp} (d : Parses r ts e) :
    TokStruct ts := by
  induction d with
  | @numF s h =>
    refine ⟨by simp, ?_, ?_, by simp, ?_⟩
    · intro x hx
      injection hx with hx
      subst hx
      exact Or.inl (isNumToken_head h)
    · intro x hx
      injection hx with hx
      subst hx
      exact Or.inl (isNumToken_head h)
    · intro x hx
      simp at hx
      subst hx
      simp [fragTok, h]
  | @parenF ts1 e1 d1 ih =>
    obtain ⟨hne, hhd, hlast, hch, hfrag⟩ := ih
    have hsplit : ("(" :: ts1 ++ [")"]) = ("(" :: ts1) ++ [")"] := rfl
    refine ⟨by simp, ?_, ?_, ?_, ?_⟩
    · intro x hx
      injection hx with hx
      subst hx
      exact Or.inr rfl
    · intro x hx
      rw [hsplit, List.getLast?_concat] at hx
      injection hx with hx
      subst hx
      exact Or.inr rfl
    · rw [hsplit]
      apply List.Chain'.append
      · rw [List.chain'_cons']
        exact ⟨fun y _ => goodPair_lparen y, hch⟩
      · simp
      · intro x _ y hy
        rw [Option.mem_def] at hy
        injection hy with hy
        subst hy
        exact goodPair_rparen x
    · intro x hx
      simp at hx
      rcases hx with hx | hx | hx
      · subst hx; decide
      · exact hfrag x hx
      · subst hx; decide
  | liftT d1 ih => exact ih
  | @mulT ts1 ts2 op l rr hop d1 d2 ih1 ih2 =>
    exact struct_binop (by tauto) ih1 ih2
  | liftE d1 ih => exact ih
  | @addE ts1 ts2 op l rr hop d1 d2 ih1 ih2 =>
    exact struct_binop (by tauto) ih1 ih2

/-- The validator accepts every token list with the derivation structure. -/
lemma validate_of_struct {ts : List String} (hs : TokStruct ts) :
    validateTokenSequence operatorPrecedence ts = Except.ok () := by
  obtain ⟨hne, hhd, hlast, hch, hfrag⟩ := hs
  unfold validateTokenSequence
  rw [validateAux_ok_iff operatorPrecedence ts ts.length 0 (by omega)]
  intro j _ hj
  rw [checkToken_ok_iff]
  cases ts with
  | nil => simp at hj
  | cons a l =>
    cases j with
    | zero =>
      have hst : StartsTok a := hhd a rfl
      have hfa : fragTok a = true := hfrag a (by simp)
      have hnu : isUnaryOperator a = false := fragTok_not_unary hfa
      have hnb : tblCount operatorPrecedence a = false := by
        rcases hst with h | h
        · exact digit_not_table h
        · subst h; decide
      have hnc : (a == ")") = false := by
        cases hq : (a == ")")
        · rfl
        · exfalso
          have ha : a = ")" := by simpa using hq
          rcases hst with h | h
          · rw [ha] at h; exact absurd h (by decide)
          · rw [ha] at h; exact absurd h (by decide)
      show violationB operatorPrecedence (a :: l) 0 = false
      simp [violationB, hnb, hnu, hnc,
        (show (headChar "").isDigit = false from by decide)]
    | succ k =>
      have hjlen : k + 1 < (a :: l).length := hj
      have htokmem : (a :: l).getD (k + 1) "" ∈ (a :: l) := by
        rw [List.getD_eq_getElem _ _ hjlen]
        exact List.getElem_mem _
      have hnu : isUnaryOperator ((a :: l).getD (k + 1) "") = false :=
        fragTok_not_unary (hfrag _ htokmem)
      have hpair : goodPair ((a :: l).getD k "") ((a :: l).getD (k + 1) "") := by
        have hcg := List.chain'_iff_get.mp hch k (by omega)
        rw [List.getD_eq_getElem _ _ (by omega : k < (a :: l).length),
          List.getD_eq_getElem _ _ hjlen]
        simpa using hcg
      have hc3 : (tblCount operatorPrecedence ((a :: l).getD (k + 1) "") &&
          !isUnaryOperator ((a :: l).getD (k + 1) "") &&
          (tblCount operatorPrecedence ((a :: l).getD k "") &&
            !isUnaryOperator ((a :: l).getD k ""))) = false := by
        rw [Bool.eq_false_iff]
        intro hq
        obtain ⟨⟨hA, hB⟩, hC, hD⟩ := by simpa only [Bool.and_eq_true] using hq
        apply hpair.1
        constructor
        · unfold isBinaryTok
          rw [hC, hD]
          rfl
        · unfold isBinaryTok
          rw [hA, hB]
          rfl
      have hc4 : ((headChar ((a :: l).getD (k + 1) "")).isDigit &&
          !((a :: l).getD k "").isEmpty &&
          (headChar ((a :: l).getD k "")).isDigit) = false := by
        rw [Bool.eq_false_iff]
        intro hq
        obtain ⟨⟨hA, _⟩, hC⟩ := by simpa only [Bool.and_eq_true] using hq
        exact hpair.2 ⟨hC, hA⟩
      have hc5 : (isUnaryOperator ((a :: l).getD (k + 1) "") &&
          !((a :: l).getD (k + 1 + 1) "").isEmpty &&
          (tblCount operatorPrecedence ((a :: l).getD (k + 1 + 1) "") &&
            !isUnaryOperator ((a :: l).getD (k + 1 + 1) ""))) = false := by
        rw [hnu]
        simp
      show violationB operatorPrecedence (a :: l) (k + 1) = false
      simp only [violationB, if_pos (Nat.succ_pos k), Nat.add_sub_cancel,
        (show ((k + 1 : Nat) == 0) = false from by simp),
        hc3, hc4, hc5, Bool.and_false, Bool.false_and, Bool.or_false,
        Bool.false_or]

/-- When validation succeeds, `evaluate` is the postfix evaluation of the
converter's output. -/
lemma evaluateS_of_valid {t : Table} {s : String}
    (hval : validateTokenSequence t (tokenizeExpression t s) = Except.ok ()) :
    evaluateS t s =
      (evaluatePostfixExpression (convertToPostfixTokens t (tokenizeExpression t s)).1,
        (convertToPostfixTokens t (tokenizeExpression t s)).2) := by
  unfold evaluateS
  simp only [hval]

/-- C4: for every input string whose token sequence is a well-formed
expression of the `+ - * /` fragment (a derivation of the standard grammar)
with reference value `v`, the evaluator returns `v`; in particular
`evaluate("1 + 2 * 3")` returns `7`. -/
theorem c4_arith_fragment_correct (s : String) (e : AExp) (v : Int)
    (hp : Parses .rE (tokenizeExpression operatorPrecedence s) e)
    (hv : refEval e = some v) :
    (evaluateS operatorPrecedence s).1 = Except.ok v ∧
    (evaluateS operatorPrecedence "1 + 2 * 3").1 = Except.ok 7 := by
  refine ⟨?_, rfl⟩
  have hval := validate_of_struct (parses_struct hp)
  have hconv := convert_correct hp
  rw [evaluateS_of_valid hval]
  show evaluatePostfixExpression (convertToPostfixTokens operatorPrecedence
    (tokenizeExpression operatorPrecedence s)).1 = Except.ok v
  rw [hconv]
  show evalPostfixAux (postfixOf e) [] = Except.ok v
  have hr : evalPostfixAux (postfixOf e ++ []) [] = evalPostfixAux [] [v] := by
    rw [evalRPN e (parses_wf hp) [] [], hv]
  rw [List.append_nil] at hr
  rw [hr]
  rfl

/-- Witness for `c4_arith_fragment_correct` at the input `"1 + 2 * 3"` with
its derivation. -/
theorem c4_arith_fragment_witness :
    (evaluateS operatorPrecedence "1 + 2 * 3").1 = Except.ok 7 := by
  have h1 : Parses .rE ["1"] (.num "1") :=
    Parses.liftE (Parses.liftT (Parses.numF (by decide)))
  have h2 : Parses .rT ["2"] (.num "2") := Parses.liftT (Parses.numF (by decide))
  have h3 : Parses .rF ["3"] (.num "3") := Parses.numF (by decide)
  have hd : Parses .rE (tokenizeExpression operatorPrecedence "1 + 2 * 3")
      (AExp.bin "+" (.num "1") (.bin "*" (.num "2") (.num "3"))) := by
    show Parses .rE ["1", "+", "2", "*", "3"] _
    exact Parses.addE (Or.inl rfl) h1 (Parses.mulT (Or.inl rfl) h2 h3)
  exact (c4_arith_fragment_correct "1 + 2 * 3" _ 7 hd (by decide)).1
